import Mathlib

/-!
Verification of the `wf_reg_test` repository against its specification.

The Python sources are shallowly embedded below:

* `src/wf_reg_test/util.py` — content hashing (`hash_path`, `hash_bytes`) and
  the ignore-aware recursive directory fold (`walk`, `_ignore_vcs`);
* `src/wf_reg_test/repos.py` — repository-URL resolution (`get_repo_accessor`),
  the GitHub accessor (`GitHubRepo.checkout`) and its scoped checkout
  (`GitHubRevision.__enter__` / `__exit__`);
* `src/wf_reg_test/__main__.py` — the freshness selection and execution loop
  (`run_out_of_date`) of the relational-generation orchestrator;
* `src/wf_reg_test/html_helpers.py` — the table builder (`html_table`).

Strings that the Python code takes apart character by character (URLs, POSIX
paths) are embedded as `List Char`; strings that stay opaque are `String`.
External libraries (xxhash, gitignore_parser, domonic, git, the database) are
abstracted by parameters or explicit state, never by stubbing the repository's
own logic.
-/

set_option maxHeartbeats 1600000
set_option synthInstance.maxHeartbeats 400000

namespace WfRegTest

/-! ### Embedding of `urllib.parse.urlparse`, restricted to what `repos.py` uses

CPython's `urlsplit` first splits a leading `scheme:` (the candidate scheme
must be nonempty, start with an ASCII letter and consist of letters, digits,
`+`, `-`, `.`; it is lower-cased), then, if the remainder starts with `//`,
takes the netloc up to the first `/`, `?` or `#`, then splits a fragment at
the first `#` and a query at the first `?`.  `urlparse` additionally splits
`;params` off the last path segment when the scheme is in `uses_params`
(which contains `https`, `http`, `ftp`, the empty scheme, and others).
-/

/-- Split a character list at the first occurrence of `sep` (the separator is
dropped), or `none` when `sep` does not occur — the semantics of Python's
`str.split(sep, 1)` used by `urlsplit` for `#` and `?`. -/
def splitFirst (sep : Char) : List Char → Option (List Char × List Char)
  | [] => none
  | c :: cs =>
    if c = sep then some ([], cs)
    else (splitFirst sep cs).map (fun p => (c :: p.1, p.2))

/-- The characters CPython allows in a URL scheme. -/
def isSchemeChar (c : Char) : Bool :=
  c.isAlphanum || c = '+' || c = '-' || c = '.'

/-- Result of `urllib.parse.urlparse`, in `ParseResult` field order. -/
structure UrlParts where
  scheme : List Char
  netloc : List Char
  path : List Char
  params : List Char
  query : List Char
  fragment : List Char
deriving Repr, DecidableEq

/-- Stage 1 of `urlsplit`: split off a valid `scheme:` prefix (lower-cased),
or leave the URL whole. -/
def schemeSplit (url : List Char) : List Char × List Char :=
  match splitFirst ':' url with
  | some p =>
    if p.1 ≠ [] ∧ (p.1.headD ' ').isAlpha ∧ p.1.all isSchemeChar
    then (p.1.map Char.toLower, p.2)
    else ([], url)
  | none => ([], url)

/-- A character that does not end the netloc. -/
def notNetlocEnd (c : Char) : Bool :=
  c ≠ '/' && c ≠ '?' && c ≠ '#'

/-- Stage 2 of `urlsplit`: when the remainder starts with `//`, the netloc
runs up to the first `/`, `?` or `#`. -/
def netlocSplit (rest : List Char) : List Char × List Char :=
  if ['/', '/'].isPrefixOf rest then
    ((rest.drop 2).takeWhile notNetlocEnd, (rest.drop 2).dropWhile notNetlocEnd)
  else ([], rest)

/-- Stage 3 of `urlsplit`: split a fragment at the first `#`, if any. -/
def fragmentSplit (rest : List Char) : List Char × List Char :=
  match splitFirst '#' rest with
  | some p => p
  | none => (rest, [])

/-- Stage 4 of `urlsplit`: split a query at the first `?`, if any. -/
def querySplit (rest : List Char) : List Char × List Char :=
  match splitFirst '?' rest with
  | some p => p
  | none => (rest, [])

/-- The schemes for which CPython's `urlparse` splits `;params` off the
last path segment (`uses_params`). -/
def uses_params : List (List Char) :=
  ["".data, "ftp".data, "hdl".data, "prospero".data, "http".data,
   "imap".data, "https".data, "shttp".data, "rtsp".data, "rtspu".data,
   "sip".data, "sips".data, "mms".data, "sftp".data, "tel".data]

/-- CPython `_splitparams`: when the path contains a `/`, split at the
first `;` at or after the last `/` (i.e. the first `;` of the last
segment), if any; otherwise split at the first `;` of the whole path. -/
def splitparams (url : List Char) : List Char × List Char :=
  if '/' ∈ url then
    let lastSeg := (url.reverse.takeWhile (fun c => c ≠ '/')).reverse
    let beforeLast := (url.reverse.dropWhile (fun c => c ≠ '/')).reverse
    match splitFirst ';' lastSeg with
    | some p => (beforeLast ++ p.1, p.2)
    | none => (url, [])
  else
    match splitFirst ';' url with
    | some p => p
    | none => (url, [])

/-- Stage 5, `urlparse` proper: for a scheme in `uses_params`, a path
containing `;` is split into path and params. -/
def paramsSplit (scheme path : List Char) : List Char × List Char :=
  if scheme ∈ uses_params ∧ ';' ∈ path then splitparams path else (path, [])

/-- Embedding of `urllib.parse.urlparse`: `urlsplit` followed by the
`;params` split of the path for schemes in `uses_params`. -/
def urlparse (url : List Char) : UrlParts :=
  let sr := schemeSplit url
  let nr := netlocSplit sr.2
  let rf := fragmentSplit nr.2
  let pq := querySplit rf.1
  let pp := paramsSplit sr.1 pq.1
  ⟨sr.1, nr.1, pp.1, pp.2, pq.2, rf.2⟩

/-! ### Embedding of `pathlib.Path(...).parts` for POSIX path strings

`PurePosixPath` splits on `/`, drops empty and `.` components, and prepends
the root part `/` for absolute paths. -/

/-- Split on every occurrence of `sep` (like Python's `str.split(sep)`). -/
def splitChar (sep : Char) : List Char → List (List Char)
  | [] => [[]]
  | c :: cs =>
    match splitChar sep cs with
    | [] => [[]]
    | h :: t => if c = sep then [] :: h :: t else (c :: h) :: t

/-- Embedding of `pathlib.Path(p).parts` (POSIX flavour): components with
empty and `.` entries dropped, preceded by the root — `/` for an absolute
path, except that a path with exactly two leading slashes keeps the special
root `//`. -/
def pathParts (p : List Char) : List (List Char) :=
  let comps := (splitChar '/' p).filter (fun s => s ≠ [] ∧ s ≠ ['.'])
  if ['/', '/'].isPrefixOf p && !(['/', '/', '/'].isPrefixOf p) then
    ['/', '/'] :: comps
  else if ['/'].isPrefixOf p then
    ['/'] :: comps
  else
    comps

/-- `needle in hay` on Python strings: substring containment. -/
def containsSeq (needle hay : List Char) : Bool :=
  hay.tails.any (fun t => needle.isPrefixOf t)

/-! ### `repos.py`: `get_repo_accessor` and the GitHub accessor -/

/-- The exceptions raised by the embedded code, one constructor per distinct
`raise` site (or runtime error) in the source. -/
inductive PyExn where
  /-- `NotImplementedError("Only know how to access whole git repositories, not subdirs")` -/
  | notImplementedSubdirs
  /-- `NotImplementedError(f"No known RepoAccessor for {parsed_url!s}")` -/
  | notImplementedNoAccessor
  /-- `ValueError(f"{revision.url} doesn't match {self.url}")` -/
  | valueErrorUrlMismatch
  /-- `AttributeError`: reading `.url` from a `str` argument -/
  | attributeErrorStrHasNoUrl
  /-- `KeyError` from a dict lookup (`{...}[size]`, `engines[...]`) -/
  | keyError
deriving Repr, DecidableEq

/-- The `GitHubRepo` dataclass of `repos.py`. -/
structure GitHubRepo where
  user : List Char
  repo : List Char
  only_tags : Bool
deriving Repr, DecidableEq

/-- Embedding of `"...".replace(".git", "")` (Python `str.replace` removes
every non-overlapping occurrence, left to right — not only a trailing one). -/
def removeDotGit : List Char → List Char
  | [] => []
  | '.' :: 'g' :: 'i' :: 't' :: rest => removeDotGit rest
  | c :: cs => c :: removeDotGit cs

deriving instance DecidableEq for Except

/-- Embedding of `get_repo_accessor` (`repos.py`, lines 19–31). -/
def get_repo_accessor (url : List Char) : Except PyExn GitHubRepo :=
  let parsed := urlparse url
  let parts := pathParts parsed.path
  if parsed.netloc = "github.com".data ∨ containsSeq "git@github:".data parsed.netloc then
    if parts.length = 3 then
      .ok ⟨parts.getD 1 [], removeDotGit (parts.getD 2 []),
           containsSeq "only_tags".data parsed.query⟩
    else
      .error .notImplementedSubdirs
  else
    .error .notImplementedNoAccessor

/-! ### `repos.py`: checkout and the cached local clone

`GitHubRepo.checkout` validates the revision URL's path and returns a
`GitHubRevision` context manager.  `GitHubRevision.__enter__` clones (or
reuses) a cached local clone under `.cache2/<xxh32 hex of the repo URL>` and
force-resets its index and working tree to the requested revision;
`__exit__` is `pass`.  The on-disk clone cache is modeled explicitly as an
association list from directory path to clone state; the external `xxhash`
hex digest is an abstract parameter. -/

/-- The relational `WorkflowApp` row, restricted to the attributes
`run_out_of_date` reads. -/
structure WorkflowAppRow where
  workflow_engine_name : String
  repo_url : List Char
deriving Repr, DecidableEq

/-- The relational `Revision` row, restricted to the attributes `checkout`
and `run_out_of_date` read (`_id`, `url`, `workflow_app`). -/
structure RevisionRow where
  rid : Nat
  url : List Char
  workflow_app : WorkflowAppRow
deriving Repr, DecidableEq

/-- The `GitHubRevision` dataclass of `repos.py`. -/
structure GitHubRevision where
  repo : GitHubRepo
  revision : List Char
deriving Repr, DecidableEq

/-- The `url` property of `GitHubRepo`:
`f"https://github.com/{self.user}/{self.repo}"`. -/
def GitHubRepo.url (r : GitHubRepo) : List Char :=
  "https://github.com/".data ++ r.user ++ ['/'] ++ r.repo

/-- A Python value passed as the `revision` argument of `checkout`.  The
callers in `__main__.py` pass `revision.url` (a `str`) even though the
annotation is `Revision`; reading `.url` from a `str` raises
`AttributeError`, so the argument's dynamic type must be modeled. -/
inductive PyArg where
  | str (s : List Char)
  | rev (r : RevisionRow)
deriving Repr, DecidableEq

/-- Embedding of `GitHubRepo.checkout` (`repos.py`, lines 65–70).  The body
first evaluates `urllib.parse.urlparse(revision.url)`: on a `str` argument
the attribute access `revision.url` already fails. -/
def GitHubRepo.checkout (repo : GitHubRepo) (arg : PyArg) :
    Except PyExn GitHubRevision :=
  match arg with
  | .str _ => .error .attributeErrorStrHasNoUrl
  | .rev revision =>
    let parsed := urlparse revision.url
    let path_parts := pathParts parsed.path
    if path_parts.take 4 = [['/'], repo.user, repo.repo, "tree".data] ∧
        path_parts.length = 5 then
      .ok ⟨repo, path_parts.getD 4 []⟩
    else
      .error .valueErrorUrlMismatch

/-- State of one cached local clone: the URL it was cloned from and the
revision its index/working tree currently sit at (`[]` right after a fresh
clone, before the reset). -/
structure CloneState where
  origin : List Char
  head : List Char
deriving Repr, DecidableEq

/-- The on-disk clone cache: directory path ↦ clone state. -/
abbrev Disk := List (List Char × CloneState)

/-- `cache_path = Path(".cache2")` (`repos.py`). -/
def cache_path : List Char := ".cache2".data

/-- Embedding of `GitHubRevision.__enter__` (`repos.py`, lines 78–87):
compute the cache key from the repo URL, clone if the directory is absent,
then reset index and working tree to the requested revision.  `hex` is the
external `xxhash.xxh32(...).hexdigest()`. -/
def GitHubRevision.enter (hex : List Char → List Char) (g : GitHubRevision)
    (disk : Disk) : List Char × Disk :=
  let url_hash := hex g.repo.url
  let repo_path := cache_path ++ ['/'] ++ url_hash
  let disk1 : Disk :=
    match disk.lookup repo_path with
    | some _ => disk
    | none => (repo_path, ⟨g.repo.url, []⟩) :: disk
  let disk2 : Disk :=
    disk1.map (fun kv =>
      (kv.1, if kv.1 = repo_path then ⟨kv.2.origin, g.revision⟩ else kv.2))
  (repo_path, disk2)

/-- Embedding of `GitHubRevision.__exit__` (`repos.py`, lines 89–95): the
body is `pass`, for the normal (`exc = none`) and the exceptional
(`exc = some e`) exit path alike. -/
def GitHubRevision.exit (_g : GitHubRevision) (_exc : Option PyExn)
    (disk : Disk) : Disk :=
  disk

/-- The `with repo.checkout(arg) as local_copy` acquisition: `checkout`
followed, on success, by `__enter__`.  Exceptions from `checkout` propagate
before any disk operation; the second component is the resulting disk. -/
def with_checkout (hex : List Char → List Char) (repo : GitHubRepo)
    (arg : PyArg) (disk : Disk) : Except PyExn (List Char) × Disk :=
  match repo.checkout arg with
  | .error e => (.error e, disk)
  | .ok g =>
    let pd := g.enter hex disk
    (.ok pd.1, pd.2)

/-! ### `__main__.py`: `run_out_of_date` (relational generation)

Timestamps are integers (seconds); `timedelta(days=100)` is `100 * 86400`.
The `Execution` table keeps `_revision_id` and `datetime`; the anti-join
selects the revisions with no execution row more recent than `now - period`.
A workflow engine (the external `engines` registry value) is abstracted as a
function from the checked-out local path to the produced execution row. -/

/-- One row of the relational `Execution` table, restricted to the columns
`run_out_of_date` touches. -/
structure ExecutionRow where
  revision_id : Nat
  datetime : Int
deriving Repr, DecidableEq

/-- The relational store contents read and written by `run_out_of_date`. -/
structure Db where
  revisions : List RevisionRow
  executions : List ExecutionRow
deriving Repr, DecidableEq

/-- A workflow engine's `run(path, session)`: yields the execution row
appended to the revision (its `revision_id` column is set by the ORM when
the row is appended to `revision.executions`). -/
def Engine := List Char → ExecutionRow

/-- The anti-join of `run_out_of_date` (`__main__.py`, lines 100–120):
`recent_executions` holds the `_revision_id` of every execution with
`datetime > now - period`; a left outer join against it, filtered to the
null matches, keeps exactly the revisions with no recent execution. -/
def revisions_to_test (now period : Int) (db : Db) : List RevisionRow :=
  let recent_executions : List Nat :=
    (db.executions.filter (fun e => now - period < e.datetime)).map
      (fun e => e.revision_id)
  db.revisions.filter (fun r => !(recent_executions.contains r.rid))

/-- The per-revision loop body of `run_out_of_date` (`__main__.py`, lines
121–129), iterated over the selected revisions: resolve the accessor from
`revision.workflow_app.repo_url`, then `with repo.checkout(revision.url)`
— note the argument is `revision.url`, a `str` — then look up the engine
and append the produced execution to the revision. -/
def run_loop (engines : List (String × Engine)) (hex : List Char → List Char) :
    List RevisionRow → Db → Disk → Except PyExn (Db × Disk)
  | [], db, disk => .ok (db, disk)
  | revision :: rest, db, disk =>
    match get_repo_accessor revision.workflow_app.repo_url with
    | .error e => .error e
    | .ok repo =>
      match repo.checkout (.str revision.url) with
      | .error e => .error e
      | .ok g =>
        let pd := g.enter hex disk
        match engines.lookup revision.workflow_app.workflow_engine_name with
        | none => .error .keyError
        | some wf_engine =>
          let execution := wf_engine pd.1
          let db2 : Db :=
            ⟨db.revisions,
             db.executions ++ [⟨revision.rid, execution.datetime⟩]⟩
          run_loop engines hex rest db2 (g.exit none pd.2)

/-- Embedding of `run_out_of_date` (`__main__.py`, lines 99–129). -/
def run_out_of_date (engines : List (String × Engine))
    (hex : List Char → List Char) (now period : Int) (db : Db) (disk : Disk) :
    Except PyExn (Db × Disk) :=
  run_loop engines hex (revisions_to_test now period db) db disk

/-- The period `main` passes: `timedelta(days=100)` (`__main__.py`,
line 151), in seconds. -/
def main_period : Int := 100 * 86400

/-- The `run_out_of_date(timedelta(days=100), session)` call in `main`. -/
def main_run (engines : List (String × Engine))
    (hex : List Char → List Char) (now : Int) (db : Db) (disk : Disk) :
    Except PyExn (Db × Disk) :=
  run_out_of_date engines hex now main_period db disk

/-! ### `util.py`: content hashing (`hash_path`, `hash_bytes`)

The external xxHash library is abstracted by three digest functions (one per
width).  An incremental hasher's observable state is the byte sequence fed to
it so far (`update` concatenates, `intdigest` applies the digest to the
accumulated bytes — the streaming contract of the xxhash library).  The
Python dict literal `{128: ..., 64: ..., 32: ...}[size]` constructs all three
hashers and then indexes, raising `KeyError` for any other `size`, before any
file is opened or any byte is hashed. -/

/-- The external xxHash digest family: one total digest per supported width. -/
structure XXHashImpl where
  xxh32 : List UInt8 → Nat
  xxh64 : List UInt8 → Nat
  xxh128 : List UInt8 → Nat

/-- An incremental hasher: the chosen digest plus the bytes fed so far. -/
structure Hasher where
  digest : List UInt8 → Nat
  acc : List UInt8

/-- `hasher.update(buffer)`. -/
def Hasher.update (h : Hasher) (buffer : List UInt8) : Hasher :=
  ⟨h.digest, h.acc ++ buffer⟩

/-- `hasher.intdigest()`. -/
def Hasher.intdigest (h : Hasher) : Nat :=
  h.digest h.acc

/-- The dict lookup `{128: xxhash.xxh128(), 64: xxhash.xxh64(),
32: xxhash.xxh32()}[size]` shared by `hash_path` and `hash_bytes`. -/
def mkHasher (impl : XXHashImpl) (size : Nat) : Except PyExn Hasher :=
  if size = 128 then .ok ⟨impl.xxh128, []⟩
  else if size = 64 then .ok ⟨impl.xxh64, []⟩
  else if size = 32 then .ok ⟨impl.xxh32, []⟩
  else .error .keyError

/-- `block_size = 1 << 14` (`util.py`, line 23). -/
def block_size : Nat := 1 <<< 14

/-- The read loop of `hash_path`: read `block_size` bytes, stop on an empty
buffer, otherwise update and continue. -/
def readLoop (h : Hasher) (data : List UInt8) : Hasher :=
  match data with
  | [] => h
  | b :: rest =>
    readLoop (h.update ((b :: rest).take block_size)) ((b :: rest).drop block_size)
termination_by data.length
decreasing_by
  simp only [List.length_drop, List.length_cons, block_size]
  omega

/-- Embedding of `hash_path` (`util.py`, lines 17–30); the file's content is
the byte list `content`. -/
def hash_path (impl : XXHashImpl) (content : List UInt8) (size : Nat) :
    Except PyExn Nat :=
  (mkHasher impl size).map (fun h => (readLoop h content).intdigest)

/-- `hash_path` at its default width (`size: int = 128`). -/
def hash_path_default (impl : XXHashImpl) (content : List UInt8) :
    Except PyExn Nat :=
  hash_path impl content 128

/-- Embedding of `hash_bytes` (`util.py`, lines 33–40). -/
def hash_bytes (impl : XXHashImpl) (buffer : List UInt8) (size : Nat) :
    Except PyExn Nat :=
  (mkHasher impl size).map (fun h => (h.update buffer).intdigest)

/-- `hash_bytes` at its default width (`size: int = 128`). -/
def hash_bytes_default (impl : XXHashImpl) (buffer : List UInt8) :
    Except PyExn Nat :=
  hash_bytes impl buffer 128

/-! ### `util.py`: the ignore-aware recursive fold (`walk`)

A directory tree is a rose tree of named entries.  The external
`gitignore_parser.parse_gitignore(ignore_file)` is abstracted as a parameter
`parse` mapping the ignore file's path and content to the predicate it
returns; ignore predicates take the rendered path string `str(subpath)`,
exactly as in the source. -/

/-- A filesystem entry: a file with its content, or a directory with its
children. -/
inductive Entry where
  | file (name : String) (content : String)
  | dir (name : String) (children : List Entry)
deriving Repr

/-- The name of an entry. -/
def Entry.name : Entry → String
  | .file n _ => n
  | .dir n _ => n

/-- An ignore predicate, applied to `str(subpath)`. -/
abbrev IgnorePred := String → Bool

/-- `gitignore_parser.parse_gitignore`, abstracted: ignore-file path and
content to matcher. -/
abbrev GitignoreParser := String → String → IgnorePred

/-- `(path / ".gitignore").exists()` plus reading that file: the content of
the child file named `.gitignore`, if any. -/
def gitignoreContent? : List Entry → Option String
  | [] => none
  | .file n c :: rest => if n = ".gitignore" then some c else gitignoreContent? rest
  | .dir _ _ :: rest => gitignoreContent? rest

/-- Python's `str.endswith`, rendered on the character lists of the two
strings. -/
def strEndsWith (s suffix : String) : Bool :=
  suffix.data.isSuffixOf s.data

/-- Embedding of `_ignore_vcs` (`util.py`, lines 43–44). -/
def _ignore_vcs (path : String) : Bool :=
  path == ".git" || strEndsWith path "/.git"

/-- The default value of `walk`'s `ignore_preds` parameter:
`(_ignore_vcs,)`. -/
def default_ignore_preds : List IgnorePred := [_ignore_vcs]

/-- `str(path / entry.name)`: POSIX rendering of a child path. -/
def childPath (path : String) (e : Entry) : String :=
  path ++ "/" ++ e.name

/-- The ignore-predicate set in force inside a directory: the inherited set,
extended with the parsed `.gitignore` of that directory when present
(`util.py`, lines 54–59). -/
def extendPreds (parse : GitignoreParser) (path : String)
    (children : List Entry) (preds : List IgnorePred) : List IgnorePred :=
  match gitignoreContent? children with
  | some c => preds ++ [parse (path ++ "/" ++ ".gitignore") c]
  | none => preds

/-- The filter of the child comprehension:
`not any(ignore_pred(str(subpath)) for ignore_pred in ignore_preds)`. -/
def keepChild (preds : List IgnorePred) (path : String) (e : Entry) : Bool :=
  !(preds.any (fun p => p (childPath path e)))

/-- Embedding of `walk` (`util.py`, lines 48–67): bottom-up fold with
ignore-pattern pruning.  `mapper` receives the path and the already-computed
child results; a file (non-directory) contributes no children. -/
def walk {T : Type} (mapper : String → List T → T) (parse : GitignoreParser)
    (path : String) (e : Entry) (preds : List IgnorePred) : T :=
  match e with
  | .file _ _ => mapper path []
  | .dir _ children =>
    let preds2 := extendPreds parse path children preds
    mapper path
      (((children.filter (keepChild preds2 path)).attach).map
        (fun c => walk mapper parse (childPath path c.1) c.1 preds2))
termination_by sizeOf e
decreasing_by
  have := List.sizeOf_lt_of_mem (List.mem_of_mem_filter c.2)
  simp only [Entry.dir.sizeOf_spec]
  omega

/-- The list of child results `walk` hands to `mapper` at a node: empty for
a non-directory, and the fold of the non-ignored children for a directory. -/
def walkChildren {T : Type} (mapper : String → List T → T)
    (parse : GitignoreParser) (path : String) (e : Entry)
    (preds : List IgnorePred) : List T :=
  match e with
  | .file _ _ => []
  | .dir _ children =>
    (children.filter (keepChild (extendPreds parse path children preds) path)).map
      (fun c => walk mapper parse (childPath path c) c
        (extendPreds parse path children preds))

/-- `walk` with its default `ignore_preds` argument. -/
def walkD {T : Type} (mapper : String → List T → T) (parse : GitignoreParser)
    (path : String) (e : Entry) : T :=
  walk mapper parse path e default_ignore_preds

/-- The list of paths `walk` invokes `mapper` on, in visit order: the fold
instantiated with the collecting mapper. -/
def visits (parse : GitignoreParser) (path : String) (e : Entry)
    (preds : List IgnorePred) : List String :=
  walk (fun p kids => p :: kids.flatten) parse path e preds

/-! ### `html_helpers.py`: the table builder

The domonic DOM library is embedded as a rose tree of tagged elements.  A
row record is an ordered mapping from column label to cell content,
embedded as an association list (Python dicts preserve insertion order, so
`.keys()` and `.values()` are the lists of first and second components). -/

/-- A DOM node: a tagged element with children, or text. -/
inductive Html where
  | elem (tag : String) (children : List Html)
  | text (s : String)
deriving Repr

/-- `html.td(x)`. -/
def td (x : Html) : Html := .elem "td" [x]

/-- `html.tr(*cells)`. -/
def tr (cells : List Html) : Html := .elem "tr" cells

/-- `html.thead(row)`. -/
def thead (row : Html) : Html := .elem "thead" [row]

/-- `html.tbody(*rows)`. -/
def tbody (rows : List Html) : Html := .elem "tbody" rows

/-- `html.table(*children)`. -/
def tableElem (children : List Html) : Html := .elem "table" children

/-- One row record: an ordered mapping of column label to cell content. -/
abbrev HtmlRow := List (Html × Html)

/-- `row.keys()`. -/
def rowKeys (row : HtmlRow) : List Html := row.map (fun kv => kv.1)

/-- `row.values()`. -/
def rowValues (row : HtmlRow) : List Html := row.map (fun kv => kv.2)

/-- Embedding of `html_table` (`html_helpers.py`, lines 10–25).  The Python
truthiness test `headers is None and elems` defaults the headers to the keys
of the first record only for a nonempty sequence of rows. -/
def html_table (elems : List HtmlRow) (headers : Option (List Html)) : Html :=
  let headers2 : Option (List Html) :=
    match headers, elems with
    | none, [] => none
    | none, first :: _ => some (rowKeys first)
    | some hs, _ => some hs
  let theadPart : List Html :=
    match headers2 with
    | some hs => [thead (tr (hs.map td))]
    | none => []
  tableElem
    (theadPart ++ [tbody (elems.map (fun row => tr ((rowValues row).map td)))])

/-! ### Input builders and specification-side definitions used by the claims -/

/-- Join path segments with a separator (no trailing separator). -/
def joinSegs (sep : Char) : List (List Char) → List Char
  | [] => []
  | [s] => s
  | s :: rest => s ++ sep :: joinSegs sep rest

/-- A URL `scheme://host/seg1/.../segN` with an optional `?query`. -/
def mkUrl (scheme host : List Char) (segs : List (List Char))
    (query : List Char) : List Char :=
  scheme ++ ':' :: '/' :: '/' :: host ++ '/' :: joinSegs '/' segs ++
    (if query = [] then [] else '?' :: query)

/-- A path segment that URL parsing (including the `;params` split of the
last segment) and `Path.parts` leave intact: nonempty, not `.`, and free of
`/`, `?`, `#` and `;`. -/
def goodSeg (s : List Char) : Prop :=
  s ≠ [] ∧ s ≠ ['.'] ∧ ∀ c ∈ s, c ≠ '/' ∧ c ≠ '?' ∧ c ≠ '#' ∧ c ≠ ';'

instance (s : List Char) : Decidable (goodSeg s) := by
  unfold goodSeg; infer_instance

/-- A host that `urlparse` keeps whole: free of `/`, `?`, `#`. -/
def goodHost (s : List Char) : Prop :=
  ∀ c ∈ s, c ≠ '/' ∧ c ≠ '?' ∧ c ≠ '#'

instance (s : List Char) : Decidable (goodHost s) := by
  unfold goodHost; infer_instance

/-- A scheme CPython's `urlsplit` accepts: nonempty, leading ASCII letter,
scheme characters throughout. -/
def goodScheme (s : List Char) : Prop :=
  s ≠ [] ∧ (s.headD ' ').isAlpha = true ∧ s.all isSchemeChar = true

instance (s : List Char) : Decidable (goodScheme s) := by
  unfold goodScheme; infer_instance

/-- The URL shape of claim C1: `https://github.com/{owner}/{repo}`, with an
optional `.git` suffix and an optional `only_tags` query flag. -/
def githubUrl (owner repo : List Char) (gitSuffix tagsFlag : Bool) :
    List Char :=
  mkUrl "https".data "github.com".data
    [owner, repo ++ (if gitSuffix then ".git".data else [])]
    (if tagsFlag then "only_tags".data else [])

/-- Modelled from the spec's words for comparison (claim C1): the repository
name "with the trailing `.git` suffix stripped" — and only a trailing one. -/
def strip_trailing_git (s : List Char) : List Char :=
  if ".git".data.isSuffixOf s then s.take (s.length - 4) else s

/-- Modelled from the spec's words for comparison (claim C5): the revision
URL "matches `{repo_url}/tree/{id}`" for the accessor's own `repo_url`. -/
def matches_repo_tree_url (repo : GitHubRepo) (url : List Char) : Prop :=
  ∃ id : List Char, url = repo.url ++ "/tree/".data ++ id

/-- A concrete catalog exercising `run_out_of_date`: one revision of a
tracked nextflow application, with no execution recorded at all. -/
def failing_db : Db :=
  ⟨[⟨1, "https://github.com/nf-core/mag/tree/abc".data,
     ⟨"nextflow", "https://github.com/nf-core/mag?only_tags".data⟩⟩], []⟩

/-! ## Lemmas about the string-splitting primitives -/

lemma splitFirst_of_not_mem {sep : Char} {xs : List Char} (h : sep ∉ xs) :
    splitFirst sep xs = none := by
  induction xs with
  | nil => rfl
  | cons c cs ih =>
    simp only [List.mem_cons, not_or] at h
    simp [splitFirst, Ne.symm h.1, ih h.2]

lemma splitFirst_append {sep : Char} {xs ys : List Char} (h : sep ∉ xs) :
    splitFirst sep (xs ++ sep :: ys) = some (xs, ys) := by
  induction xs with
  | nil => simp [splitFirst]
  | cons c cs ih =>
    simp only [List.mem_cons, not_or] at h
    simp [splitFirst, Ne.symm h.1, ih h.2]

lemma takeWhile_append_cons {p : Char → Bool} {xs ys : List Char} {y : Char}
    (h1 : ∀ c ∈ xs, p c = true) (h2 : p y = false) :
    (xs ++ y :: ys).takeWhile p = xs := by
  induction xs with
  | nil => simp [List.takeWhile_cons, h2]
  | cons c cs ih =>
    have hc := h1 c (List.mem_cons_self c cs)
    simp [List.takeWhile_cons, hc, ih (fun d hd => h1 d (List.mem_cons_of_mem c hd))]

lemma dropWhile_append_cons {p : Char → Bool} {xs ys : List Char} {y : Char}
    (h1 : ∀ c ∈ xs, p c = true) (h2 : p y = false) :
    (xs ++ y :: ys).dropWhile p = y :: ys := by
  induction xs with
  | nil => simp [List.dropWhile_cons, h2]
  | cons c cs ih =>
    have hc := h1 c (List.mem_cons_self c cs)
    simp [List.dropWhile_cons, hc, ih (fun d hd => h1 d (List.mem_cons_of_mem c hd))]

lemma splitChar_ne_nil {sep : Char} (l : List Char) : splitChar sep l ≠ [] := by
  cases l with
  | nil => simp [splitChar]
  | cons c cs =>
    simp only [splitChar]
    cases splitChar sep cs with
    | nil => simp
    | cons h t => by_cases hc : c = sep <;> simp [hc]

lemma splitChar_of_not_mem {sep : Char} {xs : List Char} (h : sep ∉ xs) :
    splitChar sep xs = [xs] := by
  induction xs with
  | nil => rfl
  | cons c cs ih =>
    simp only [List.mem_cons, not_or] at h
    simp [splitChar, ih h.2, Ne.symm h.1]

lemma splitChar_append {sep : Char} {xs ys : List Char} (h : sep ∉ xs) :
    splitChar sep (xs ++ sep :: ys) = xs :: splitChar sep ys := by
  induction xs with
  | nil =>
    simp only [List.nil_append, splitChar]
    cases hs : splitChar sep ys with
    | nil => exact absurd hs (splitChar_ne_nil ys)
    | cons h t => simp [← hs]
  | cons c cs ih =>
    simp only [List.mem_cons, not_or] at h
    have := ih h.2
    simp only [List.cons_append, splitChar, List.append_eq]
    rw [this]
    simp [Ne.symm h.1]

lemma mem_joinSegs {sep c : Char} :
    ∀ {segs : List (List Char)}, c ∈ joinSegs sep segs →
      c = sep ∨ ∃ s ∈ segs, c ∈ s := by
  intro segs
  induction segs with
  | nil => simp [joinSegs]
  | cons s rest ih =>
    cases rest with
    | nil => intro hc; exact Or.inr ⟨s, List.mem_cons_self s [], by simpa [joinSegs] using hc⟩
    | cons s2 rest2 =>
      intro hc
      simp only [joinSegs, List.mem_append, List.mem_cons] at hc
      rcases hc with hs | hsep | hrest
      · exact Or.inr ⟨s, List.mem_cons_self _ _, hs⟩
      · exact Or.inl hsep
      · rcases ih hrest with h | ⟨t, ht, hct⟩
        · exact Or.inl h
        · exact Or.inr ⟨t, List.mem_cons_of_mem s ht, hct⟩

lemma splitChar_joinSegs {sep : Char} :
    ∀ {segs : List (List Char)}, segs ≠ [] → (∀ s ∈ segs, sep ∉ s) →
      splitChar sep (joinSegs sep segs) = segs := by
  intro segs
  induction segs with
  | nil => intro h; exact absurd rfl h
  | cons s rest ih =>
    intro _ hall
    cases rest with
    | nil =>
      simpa [joinSegs] using splitChar_of_not_mem (hall s (List.mem_cons_self s []))
    | cons s2 rest2 =>
      have hs : sep ∉ s := hall s (List.mem_cons_self s _)
      have hrest : ∀ t ∈ s2 :: rest2, sep ∉ t :=
        fun t ht => hall t (List.mem_cons_of_mem s ht)
      simp only [joinSegs]
      rw [splitChar_append hs, ih (by simp) hrest]

/-! ## Lemmas about `urlparse` and `pathParts` on well-formed inputs -/

lemma isPrefixOf_self (l : List Char) : l.isPrefixOf l = true := by
  induction l with
  | nil => rfl
  | cons c cs ih => simp [List.isPrefixOf, ih]

lemma containsSeq_self (n : List Char) : containsSeq n n = true := by
  rw [containsSeq, List.any_eq_true]
  exact ⟨n, by simp [List.mem_tails], isPrefixOf_self n⟩

lemma schemeSplit_append {scheme rest : List Char} (h : goodScheme scheme) :
    schemeSplit (scheme ++ ':' :: rest) = (scheme.map Char.toLower, rest) := by
  have hns : ':' ∉ scheme := by
    intro hm
    have hall := h.2.2
    rw [List.all_eq_true] at hall
    exact absurd (hall ':' hm) (by decide)
  obtain ⟨c, cs, rfl⟩ := List.exists_cons_of_ne_nil h.1
  have halpha : c.isAlpha = true := by simpa using h.2.1
  rw [schemeSplit, splitFirst_append hns]
  simp [halpha, h.2.2]

lemma netlocSplit_append {host rest : List Char} (hh : goodHost host) :
    netlocSplit ('/' :: '/' :: (host ++ '/' :: rest)) = (host, '/' :: rest) := by
  have h1 : ∀ c ∈ host, notNetlocEnd c = true := by
    intro c hc
    have := hh c hc
    simp [notNetlocEnd, this.1, this.2.1, this.2.2]
  have h2 : notNetlocEnd '/' = false := by decide
  rw [netlocSplit]
  rw [if_pos (by simp [List.isPrefixOf])]
  simp only [List.drop_succ_cons, List.drop_zero]
  rw [takeWhile_append_cons h1 h2, dropWhile_append_cons h1 h2]

lemma fragmentSplit_of_not_mem {rest : List Char} (h : '#' ∉ rest) :
    fragmentSplit rest = (rest, []) := by
  rw [fragmentSplit, splitFirst_of_not_mem h]

lemma querySplit_of_not_mem {rest : List Char} (h : '?' ∉ rest) :
    querySplit rest = (rest, []) := by
  rw [querySplit, splitFirst_of_not_mem h]

lemma querySplit_append {path q : List Char} (h : '?' ∉ path) :
    querySplit (path ++ '?' :: q) = (path, q) := by
  rw [querySplit, splitFirst_append h]

lemma paramsSplit_of_not_mem {scheme path : List Char} (h : ';' ∉ path) :
    paramsSplit scheme path = (path, []) := by
  rw [paramsSplit, if_neg]
  intro hcon
  exact h hcon.2

lemma urlparse_mkUrl {scheme host : List Char} {segs : List (List Char)}
    {query : List Char} (hs : goodScheme scheme) (hh : goodHost host)
    (hsegs : ∀ s ∈ segs, ∀ c ∈ s, c ≠ '/' ∧ c ≠ '?' ∧ c ≠ '#' ∧ c ≠ ';')
    (hq : '#' ∉ query) :
    urlparse (mkUrl scheme host segs query) =
      ⟨scheme.map Char.toLower, host, '/' :: joinSegs '/' segs, [], query,
        []⟩ := by
  have hjoin : ∀ c ∈ joinSegs '/' segs,
      c = '/' ∨ (c ≠ '/' ∧ c ≠ '?' ∧ c ≠ '#' ∧ c ≠ ';') := by
    intro c hc
    rcases mem_joinSegs hc with h | ⟨s, hsmem, hcs⟩
    · exact Or.inl h
    · exact Or.inr (hsegs s hsmem c hcs)
  have hqmem : '?' ∉ joinSegs '/' segs := by
    intro hmem
    rcases hjoin _ hmem with h | h
    · exact absurd h (by decide)
    · exact h.2.1 rfl
  have hhmem : '#' ∉ joinSegs '/' segs := by
    intro hmem
    rcases hjoin _ hmem with h | h
    · exact absurd h (by decide)
    · exact h.2.2.1 rfl
  have hsemi : ';' ∉ ('/' :: joinSegs '/' segs) := by
    simp only [List.mem_cons, not_or]
    refine ⟨by decide, ?_⟩
    intro hmem
    rcases hjoin _ hmem with h | h
    · exact absurd h (by decide)
    · exact h.2.2.2 rfl
  by_cases hqnil : query = []
  · subst hqnil
    have hshape : mkUrl scheme host segs [] =
        scheme ++ ':' :: ('/' :: '/' :: (host ++ '/' :: joinSegs '/' segs)) := by
      simp [mkUrl, List.append_assoc]
    have hfrag : '#' ∉ ('/' :: joinSegs '/' segs) := by
      simp only [List.mem_cons, not_or]
      exact ⟨by decide, hhmem⟩
    have hquery : '?' ∉ ('/' :: joinSegs '/' segs) := by
      simp only [List.mem_cons, not_or]
      exact ⟨by decide, hqmem⟩
    have e1 : schemeSplit (mkUrl scheme host segs []) =
        (scheme.map Char.toLower, '/' :: '/' :: (host ++ '/' :: joinSegs '/' segs)) := by
      rw [hshape]; exact schemeSplit_append hs
    have e2 : netlocSplit ('/' :: '/' :: (host ++ '/' :: joinSegs '/' segs)) =
        (host, '/' :: joinSegs '/' segs) := netlocSplit_append hh
    have e3 : fragmentSplit ('/' :: joinSegs '/' segs) =
        ('/' :: joinSegs '/' segs, []) := fragmentSplit_of_not_mem hfrag
    have e4 : querySplit ('/' :: joinSegs '/' segs) =
        ('/' :: joinSegs '/' segs, []) := querySplit_of_not_mem hquery
    have e5 : ∀ sch : List Char, paramsSplit sch ('/' :: joinSegs '/' segs) =
        ('/' :: joinSegs '/' segs, []) :=
      fun sch => paramsSplit_of_not_mem hsemi
    simp only [urlparse, e1, e2, e3, e4, e5]
  · have hshape : mkUrl scheme host segs query =
        scheme ++ ':' :: ('/' :: '/' :: (host ++ '/' ::
          (joinSegs '/' segs ++ '?' :: query))) := by
      simp [mkUrl, List.append_assoc, hqnil]
    have hfrag : '#' ∉ ('/' :: (joinSegs '/' segs ++ '?' :: query)) := by
      simp only [List.mem_cons, List.mem_append, not_or]
      exact ⟨by decide, hhmem, by decide, hq⟩
    have hquery : '?' ∉ ('/' :: joinSegs '/' segs) := by
      simp only [List.mem_cons, not_or]
      exact ⟨by decide, hqmem⟩
    have e1 : schemeSplit (mkUrl scheme host segs query) =
        (scheme.map Char.toLower,
         '/' :: '/' :: (host ++ '/' :: (joinSegs '/' segs ++ '?' :: query))) := by
      rw [hshape]; exact schemeSplit_append hs
    have e2 : netlocSplit ('/' :: '/' :: (host ++ '/' ::
        (joinSegs '/' segs ++ '?' :: query))) =
        (host, '/' :: (joinSegs '/' segs ++ '?' :: query)) := netlocSplit_append hh
    have e3 : fragmentSplit ('/' :: (joinSegs '/' segs ++ '?' :: query)) =
        ('/' :: (joinSegs '/' segs ++ '?' :: query), []) :=
      fragmentSplit_of_not_mem hfrag
    have e4 : querySplit ('/' :: (joinSegs '/' segs ++ '?' :: query)) =
        ('/' :: joinSegs '/' segs, query) := by
      rw [show ('/' :: (joinSegs '/' segs ++ '?' :: query)) =
          ('/' :: joinSegs '/' segs) ++ '?' :: query from by simp]
      exact querySplit_append hquery
    have e5 : ∀ sch : List Char, paramsSplit sch ('/' :: joinSegs '/' segs) =
        ('/' :: joinSegs '/' segs, []) :=
      fun sch => paramsSplit_of_not_mem hsemi
    simp only [urlparse, e1, e2, e3, e4, e5]

lemma pathParts_root {segs : List (List Char)} (hne : segs ≠ [])
    (hgood : ∀ s ∈ segs, s ≠ [] ∧ s ≠ ['.'] ∧ '/' ∉ s) :
    pathParts ('/' :: joinSegs '/' segs) = ['/'] :: segs := by
  have hsplit : splitChar '/' ('/' :: joinSegs '/' segs) = [] :: segs := by
    have hrw : ('/' :: joinSegs '/' segs) = [] ++ '/' :: joinSegs '/' segs := rfl
    rw [hrw, splitChar_append (by simp),
      splitChar_joinSegs hne (fun s hs => (hgood s hs).2.2)]
  obtain ⟨s0, rest, rfl⟩ : ∃ s0 rest, segs = s0 :: rest := by
    cases segs with
    | nil => exact absurd rfl hne
    | cons a t => exact ⟨a, t, rfl⟩
  obtain ⟨c, s0t, rfl⟩ : ∃ c s0t, s0 = c :: s0t := by
    cases s0 with
    | nil => exact absurd rfl (hgood [] (List.mem_cons_self _ _)).1
    | cons a t => exact ⟨a, t, rfl⟩
  have hcslash : c ≠ '/' := by
    intro h
    exact (hgood (c :: s0t) (List.mem_cons_self _ _)).2.2
      (h ▸ List.mem_cons_self c s0t)
  obtain ⟨t, ht⟩ : ∃ t, joinSegs '/' ((c :: s0t) :: rest) = c :: t := by
    cases rest with
    | nil => exact ⟨s0t, rfl⟩
    | cons b bs =>
      exact ⟨s0t ++ '/' :: joinSegs '/' (b :: bs), by simp [joinSegs]⟩
  have hbc : ('/' == c) = false := by
    rw [beq_eq_false_iff_ne]
    exact Ne.symm hcslash
  have hpre1 : ((['/', '/'] : List Char).isPrefixOf
      ('/' :: joinSegs '/' ((c :: s0t) :: rest))) = false := by
    rw [ht]
    simp [List.isPrefixOf, hbc]
  have hpre2 : ((['/'] : List Char).isPrefixOf
      ('/' :: joinSegs '/' ((c :: s0t) :: rest))) = true := by
    simp [List.isPrefixOf]
  simp only [pathParts, hsplit, hpre1, hpre2, Bool.false_and, Bool.false_eq_true,
    if_false, if_true]
  rw [List.filter_cons_of_neg (by simp)]
  rw [List.filter_eq_self.mpr (fun s hs => by
    simp [(hgood s hs).1, (hgood s hs).2.1])]

lemma goodSeg_append_git {repo : List Char} (h : goodSeg repo) :
    goodSeg (repo ++ ".git".data) := by
  refine ⟨?_, ?_, ?_⟩
  · intro hc
    have := congrArg List.length hc
    simp at this
  · intro hc
    have := congrArg List.length hc
    simp at this
  · intro c hc
    rcases List.mem_append.mp hc with h1 | h2
    · exact h.2.2 c h1
    · have hgit : ∀ c ∈ ".git".data, c ≠ '/' ∧ c ≠ '?' ∧ c ≠ '#' ∧ c ≠ ';' := by
        decide
      exact hgit c h2

/-! ## Lemmas about the recursive fold `walk` -/

lemma visits_file (parse : GitignoreParser) (path : String) (n c : String)
    (preds : List IgnorePred) : visits parse path (.file n c) preds = [path] := by
  simp [visits, walk]

lemma visits_dir (parse : GitignoreParser) (path : String) (n : String)
    (children : List Entry) (preds : List IgnorePred) :
    visits parse path (.dir n children) preds =
      path ::
        ((children.filter
            (keepChild (extendPreds parse path children preds) path)).map
          (fun c => visits parse (childPath path c) c
            (extendPreds parse path children preds))).flatten := by
  rw [visits]
  simp only [walk]
  simp [List.map_attach, List.pmap_eq_map, visits]

lemma mem_extendPreds {parse : GitignoreParser} {path : String}
    {children : List Entry} {preds : List IgnorePred} {pr : IgnorePred}
    (h : pr ∈ preds) : pr ∈ extendPreds parse path children preds := by
  unfold extendPreds
  cases gitignoreContent? children with
  | none => exact h
  | some c => exact List.mem_append_left _ h

lemma keepChild_eq_true {preds : List IgnorePred} {path : String} {e : Entry}
    (h : keepChild preds path e = true) :
    ∀ pr ∈ preds, pr (childPath path e) = false := by
  rw [keepChild, Bool.not_eq_true'] at h
  intro pr hpr
  by_contra hcon
  rw [Bool.not_eq_false] at hcon
  have hany : preds.any (fun p => p (childPath path e)) = true :=
    List.any_eq_true.mpr ⟨pr, hpr, hcon⟩
  rw [hany] at h
  exact absurd h (by decide)

lemma visits_pred_false {parse : GitignoreParser} :
    ∀ (n : Nat) (e : Entry) (path : String) (preds : List IgnorePred)
      (q : String), sizeOf e ≤ n → q ∈ visits parse path e preds → q ≠ path →
      ∀ pr ∈ preds, pr q = false := by
  intro n
  induction n with
  | zero =>
    intro e path preds q hsz
    cases e <;> simp [Entry.file.sizeOf_spec, Entry.dir.sizeOf_spec] at hsz
  | succ n ih =>
    intro e path preds q hsz hq hne pr hpr
    cases e with
    | file nm c =>
      rw [visits_file] at hq
      simp at hq
      exact absurd hq hne
    | dir nm children =>
      rw [visits_dir] at hq
      rcases List.mem_cons.mp hq with h | h
      · exact absurd h hne
      · rw [List.mem_flatten] at h
        obtain ⟨l, hl, hql⟩ := h
        rw [List.mem_map] at hl
        obtain ⟨c, hcmem, rfl⟩ := hl
        have hkeep : keepChild (extendPreds parse path children preds) path c = true :=
          (List.mem_filter.mp hcmem).2
        have hchild : c ∈ children := (List.mem_filter.mp hcmem).1
        have hpr2 : pr ∈ extendPreds parse path children preds := mem_extendPreds hpr
        by_cases hqc : q = childPath path c
        · subst hqc
          exact keepChild_eq_true hkeep pr hpr2
        · have hsz2 : sizeOf c ≤ n := by
            have := List.sizeOf_lt_of_mem hchild
            simp only [Entry.dir.sizeOf_spec] at hsz
            omega
          exact ih c (childPath path c)
            (extendPreds parse path children preds) q hsz2 hql hqc pr hpr2

lemma visits_extendPreds_false {parse : GitignoreParser} {path n : String}
    {children : List Entry} {preds : List IgnorePred} {q : String}
    (hq : q ∈ visits parse path (.dir n children) preds) (hne : q ≠ path) :
    ∀ pr ∈ extendPreds parse path children preds, pr q = false := by
  intro pr hpr
  rw [visits_dir] at hq
  rcases List.mem_cons.mp hq with h | h
  · exact absurd h hne
  · rw [List.mem_flatten] at h
    obtain ⟨l, hl, hql⟩ := h
    rw [List.mem_map] at hl
    obtain ⟨c, hcmem, rfl⟩ := hl
    have hkeep : keepChild (extendPreds parse path children preds) path c = true :=
      (List.mem_filter.mp hcmem).2
    by_cases hqc : q = childPath path c
    · subst hqc
      exact keepChild_eq_true hkeep pr hpr
    · exact visits_pred_false (sizeOf c) c (childPath path c)
        (extendPreds parse path children preds) q le_rfl hql hqc pr hpr

/-! ## Lemmas about hashing and the clone cache -/

lemma readLoop_eq : ∀ (n : Nat) (data : List UInt8) (h : Hasher),
    data.length ≤ n → readLoop h data = ⟨h.digest, h.acc ++ data⟩ := by
  intro n
  induction n with
  | zero =>
    intro data h hlen
    have hd : data = [] := List.length_eq_zero.mp (Nat.le_zero.mp hlen)
    subst hd
    simp [readLoop]
  | succ n ih =>
    intro data h hlen
    cases data with
    | nil => simp [readLoop]
    | cons b rest =>
      simp only [readLoop]
      rw [ih ((b :: rest).drop block_size) (h.update ((b :: rest).take block_size))
        (by simp only [List.length_drop, List.length_cons, block_size]
            simp only [List.length_cons] at hlen
            omega)]
      simp [Hasher.update, List.append_assoc]

lemma lookup_isSome_map (l : List (List Char × CloneState)) (k : List Char)
    (f : List Char × CloneState → CloneState) :
    ((l.map (fun kv => (kv.1, f kv))).lookup k).isSome =
      ((l.lookup k).isSome) := by
  induction l with
  | nil => rfl
  | cons a t ih =>
    simp only [List.map_cons, List.lookup]
    cases hk : (k == a.1) <;> simp [hk, ih]

lemma enter_lookup_isSome (hex : List Char → List Char) (g : GitHubRevision)
    (disk : Disk) :
    (((g.enter hex disk).2).lookup (g.enter hex disk).1).isSome = true := by
  rw [GitHubRevision.enter]
  simp only
  rw [lookup_isSome_map]
  cases hlk : disk.lookup (cache_path ++ ['/'] ++ hex g.repo.url) with
  | some v => rw [hlk]; simp [hlk]
  | none => simp [List.lookup]

/-! ## Claim theorems -/

/-- C4: for every byte sequence `b` and every supported digest width in
{32, 64, 128}, hashing a file whose content is `b` via the streamed,
16 KiB-blocked `hash_path` yields the same integer digest as the one-shot
`hash_bytes b size`; and both functions default to the 128-bit width. -/
theorem claim4_hash_stream_equiv (impl : XXHashImpl) (b : List UInt8)
    (size : Nat) (hsize : size = 32 ∨ size = 64 ∨ size = 128) :
    hash_path impl b size = hash_bytes impl b size ∧
    hash_path_default impl b = hash_path impl b 128 ∧
    hash_bytes_default impl b = hash_bytes impl b 128 := by
  refine ⟨?_, rfl, rfl⟩
  have key : ∀ d : List UInt8 → Nat,
      (readLoop ⟨d, []⟩ b).intdigest = ((⟨d, []⟩ : Hasher).update b).intdigest := by
    intro d
    rw [readLoop_eq b.length b ⟨d, []⟩ le_rfl]
    rfl
  rcases hsize with rfl | rfl | rfl <;>
    simp [hash_path, hash_bytes, mkHasher, Except.map, key]

theorem claim4_hash_stream_equiv_witness :
    ((64 : Nat) = 32 ∨ (64 : Nat) = 64 ∨ (64 : Nat) = 128) ∧
    (hash_path ⟨fun l => l.length, fun l => 2 * l.length, fun l => 3 * l.length⟩
        [1, 2, 3] 64 =
      hash_bytes ⟨fun l => l.length, fun l => 2 * l.length, fun l => 3 * l.length⟩
        [1, 2, 3] 64 ∧
    hash_path_default ⟨fun l => l.length, fun l => 2 * l.length, fun l => 3 * l.length⟩
        [1, 2, 3] =
      hash_path ⟨fun l => l.length, fun l => 2 * l.length, fun l => 3 * l.length⟩
        [1, 2, 3] 128 ∧
    hash_bytes_default ⟨fun l => l.length, fun l => 2 * l.length, fun l => 3 * l.length⟩
        [1, 2, 3] =
      hash_bytes ⟨fun l => l.length, fun l => 2 * l.length, fun l => 3 * l.length⟩
        [1, 2, 3] 128) :=
  ⟨by decide, claim4_hash_stream_equiv _ _ 64 (by decide)⟩

/-- C8: for every `size` outside {32, 64, 128}, both `hash_path` and
`hash_bytes` fail with the dict lookup error (`KeyError`), and `hash_path`
fails before reading any data: its result does not depend on the file's
content.  No digest is returned. -/
theorem claim8_unsupported_size (impl : XXHashImpl)
    (content content2 buffer : List UInt8) (size : Nat)
    (hsize : ¬(size = 32 ∨ size = 64 ∨ size = 128)) :
    hash_path impl content size = .error .keyError ∧
    hash_bytes impl buffer size = .error .keyError ∧
    hash_path impl content size = hash_path impl content2 size := by
  push_neg at hsize
  obtain ⟨h32, h64, h128⟩ := hsize
  refine ⟨?_, ?_, ?_⟩ <;>
    simp [hash_path, hash_bytes, mkHasher, Except.map, h32, h64, h128]

theorem claim8_unsupported_size_witness :
    (¬((5 : Nat) = 32 ∨ (5 : Nat) = 64 ∨ (5 : Nat) = 128)) ∧
    (hash_path ⟨fun l => l.length, fun l => l.length, fun l => l.length⟩ [0] 5 =
        .error .keyError ∧
    hash_bytes ⟨fun l => l.length, fun l => l.length, fun l => l.length⟩ [7] 5 =
        .error .keyError ∧
    hash_path ⟨fun l => l.length, fun l => l.length, fun l => l.length⟩ [0] 5 =
      hash_path ⟨fun l => l.length, fun l => l.length, fun l => l.length⟩ [1, 2] 5) :=
  ⟨by decide, claim8_unsupported_size _ [0] [1, 2] [7] 5 (by decide)⟩

/-- C7: for every non-empty sequence of row records, `html_table` without an
explicit header list produces a table whose header row consists of the keys
of the first record and whose body has exactly one row per record holding
that record's values in order; with an explicit header list, that list forms
the header row instead. -/
theorem claim7_html_table (first : HtmlRow) (rest : List HtmlRow) :
    (html_table (first :: rest) none =
      tableElem [thead (tr ((rowKeys first).map td)),
        tbody ((first :: rest).map (fun row => tr ((rowValues row).map td)))]) ∧
    ∀ (elems : List HtmlRow) (hs : List Html),
      html_table elems (some hs) =
        tableElem [thead (tr (hs.map td)),
          tbody (elems.map (fun row => tr ((rowValues row).map td)))] :=
  ⟨rfl, fun _ _ => rfl⟩

/-- C9: `walk` never applies the ignore predicates to the root path it is
called on: the caller-supplied mapper is always invoked on the root itself
(whatever the root's name and whatever the active predicates match), and the
root is always the first visited path. -/
theorem claim9_root_always_visited :
    (∀ (T : Type) (mapper : String → List T → T) (parse : GitignoreParser)
       (path : String) (e : Entry) (preds : List IgnorePred),
       walk mapper parse path e preds =
         mapper path (walkChildren mapper parse path e preds)) ∧
    ∀ (parse : GitignoreParser) (path : String) (e : Entry)
      (preds : List IgnorePred),
      (visits parse path e preds).head? = some path := by
  constructor
  · intro T mapper parse path e preds
    cases e with
    | file n c => simp [walk, walkChildren]
    | dir n cs =>
      simp only [walk, walkChildren]
      simp [List.map_attach, List.pmap_eq_map]
  · intro parse path e preds
    cases e with
    | file n c => rw [visits_file]; rfl
    | dir n cs => rw [visits_dir]; rfl

/-- C3: the recursive fold never visits a subpath matched by the predicate
parsed from a `.gitignore` file of an ancestor directory within the walked
tree (conjunct 1, stated for the directory containing the ignore file and,
through the unfolding equation of conjunct 3, for every directory the fold
descends into); with the default ignore predicates, no visited path other
than the root is named `.git` or ends in `/.git`, regardless of ignore-file
content (conjunct 2); gitignore patterns are added exactly when entering the
directory containing the ignore file and are passed only to that directory's
own child filter and recursive calls, i.e. inherited downward (conjunct 3),
and the predicate set entering a directory depends only on the inherited set
and that directory's own ignore file, not on sibling content (conjunct 4). -/
theorem claim3_walk_ignore :
    (∀ (parse : GitignoreParser) (path n : String) (children : List Entry)
       (preds : List IgnorePred) (c : String) (q : String),
       gitignoreContent? children = some c →
       q ∈ visits parse path (.dir n children) preds → q ≠ path →
       parse (path ++ "/" ++ ".gitignore") c q = false) ∧
    (∀ (parse : GitignoreParser) (path : String) (e : Entry) (q : String),
       q ∈ visits parse path e default_ignore_preds → q ≠ path →
       q ≠ ".git" ∧ strEndsWith q "/.git" = false) ∧
    (∀ (parse : GitignoreParser) (path n : String) (children : List Entry)
       (preds : List IgnorePred),
       visits parse path (.dir n children) preds =
         path ::
           ((children.filter
               (keepChild (extendPreds parse path children preds) path)).map
             (fun c => visits parse (childPath path c) c
               (extendPreds parse path children preds))).flatten) ∧
    (∀ (parse : GitignoreParser) (path : String) (preds : List IgnorePred)
       (children children2 : List Entry),
       gitignoreContent? children = gitignoreContent? children2 →
       extendPreds parse path children preds =
         extendPreds parse path children2 preds) := by
  refine ⟨?_, ?_, ?_, ?_⟩
  · intro parse path n children preds c q hgi hq hne
    have hpr : parse (path ++ "/" ++ ".gitignore") c ∈
        extendPreds parse path children preds := by
      rw [extendPreds, hgi]
      exact List.mem_append_right _ (List.mem_singleton.mpr rfl)
    exact visits_extendPreds_false hq hne _ hpr
  · intro parse path e q hq hne
    have hvcs : _ignore_vcs q = false :=
      visits_pred_false (sizeOf e) e path default_ignore_preds q le_rfl hq hne
        _ignore_vcs (List.mem_singleton.mpr rfl)
    rw [_ignore_vcs, Bool.or_eq_false_iff] at hvcs
    exact ⟨by simpa using hvcs.1, hvcs.2⟩
  · intro parse path n children preds
    exact visits_dir parse path n children preds
  · intro parse path preds children children2 h
    rw [extendPreds, extendPreds, h]

theorem claim3_walk_ignore_witness :
    (gitignoreContent? [Entry.file ".gitignore" "r/b", Entry.file "a" "x",
        Entry.file "b" "y"] = some "r/b" ∧
     "r/a" ∈ visits (fun _ c s => s == c) "r"
        (.dir "r" [Entry.file ".gitignore" "r/b", Entry.file "a" "x",
          Entry.file "b" "y"]) default_ignore_preds ∧
     "r/a" ≠ "r") ∧
    ((fun (_ : String) (c : String) (s : String) => s == c)
        ("r" ++ "/" ++ ".gitignore") "r/b" "r/a" = false) ∧
    ("r/a" ≠ ".git" ∧ strEndsWith "r/a" "/.git" = false) := by
  have heval : visits (fun _ c s => s == c) "r"
      (.dir "r" [Entry.file ".gitignore" "r/b", Entry.file "a" "x",
        Entry.file "b" "y"]) default_ignore_preds =
      ["r", "r/.gitignore", "r/a"] := by
    simp [visits, walk, extendPreds, gitignoreContent?, keepChild, childPath,
      default_ignore_preds, _ignore_vcs, Entry.name, List.filter, List.attach,
      show (strEndsWith "r/.gitignore" "/.git") = false from by decide,
      show (strEndsWith "r/a" "/.git") = false from by decide,
      show (strEndsWith "r/b" "/.git") = false from by decide]
  have hmem : "r/a" ∈ visits (fun _ c s => s == c) "r"
      (.dir "r" [Entry.file ".gitignore" "r/b", Entry.file "a" "x",
        Entry.file "b" "y"]) default_ignore_preds := by
    rw [heval]; simp
  refine ⟨⟨by simp [gitignoreContent?], hmem, by decide⟩, ?_, ?_⟩
  · exact claim3_walk_ignore.1 (fun _ c s => s == c) "r" "r"
      [Entry.file ".gitignore" "r/b", Entry.file "a" "x", Entry.file "b" "y"]
      default_ignore_preds "r/b" "r/a" (by simp [gitignoreContent?]) hmem
      (by decide)
  · exact claim3_walk_ignore.2.1 (fun _ c s => s == c) "r"
      (.dir "r" [Entry.file ".gitignore" "r/b", Entry.file "a" "x",
        Entry.file "b" "y"]) "r/a" hmem (by decide)

/-- C6: the release operation of a checkout acquisition performs no cleanup:
`__exit__` returns the disk unchanged on the normal and the exceptional path
alike, and after `__enter__` the cached clone directory is present on disk
and still present after `__exit__`, available for reuse. -/
theorem claim6_exit_no_cleanup :
    (∀ (g : GitHubRevision) (exc : Option PyExn) (disk : Disk),
       g.exit exc disk = disk) ∧
    ∀ (hex : List Char → List Char) (g : GitHubRevision) (exc : Option PyExn)
      (disk : Disk),
      g.exit exc (g.enter hex disk).2 = (g.enter hex disk).2 ∧
      (((g.enter hex disk).2).lookup (g.enter hex disk).1).isSome = true := by
  constructor
  · intro g exc disk
    rfl
  · intro hex g exc disk
    exact ⟨rfl, enter_lookup_isSome hex g disk⟩

/-- C2: the anti-join of `run_out_of_date` selects exactly the revisions
with no execution whose timestamp is later than `now - period` (conjunct 1).
The per-revision loop, however, passes `revision.url` — a string — to
`checkout`, whose body reads `.url` from it, so on any catalog with a
selected revision the run (invoked by `main` with the 100-day window) raises
`AttributeError` instead of checking out and running the revision
(conjunct 2, evaluated at the concrete failing catalog `failing_db`). -/
theorem claim2_selection_and_run :
    (∀ (now period : Int) (db : Db) (r : RevisionRow),
       r ∈ revisions_to_test now period db ↔
         r ∈ db.revisions ∧
           ¬∃ e ∈ db.executions,
             e.revision_id = r.rid ∧ now - period < e.datetime) ∧
    ∀ (engines : List (String × Engine)) (hex : List Char → List Char)
      (now : Int) (disk : Disk),
      main_run engines hex now failing_db disk =
        .error .attributeErrorStrHasNoUrl := by
  constructor
  · intro now period db r
    simp only [revisions_to_test, List.mem_filter, Bool.not_eq_true',
      and_congr_right_iff]
    intro _
    have hiff : ∀ (l : List Nat) (a : Nat), l.contains a = true ↔ a ∈ l :=
      fun l a => by simp [List.contains, List.elem_iff]
    constructor
    · intro hcon ⟨e, hemem, hid, hrecent⟩
      have hm : r.rid ∈ (db.executions.filter
          (fun e => now - period < e.datetime)).map (fun e => e.revision_id) := by
        rw [List.mem_map]
        exact ⟨e, List.mem_filter.mpr ⟨hemem, by simpa using hrecent⟩, hid⟩
      rw [← hiff] at hm
      rw [hm] at hcon
      exact absurd hcon (by decide)
    · intro hnone
      rw [← Bool.not_eq_true]
      intro hc
      rw [hiff] at hc
      rw [List.mem_map] at hc
      obtain ⟨e, hef, hid⟩ := hc
      obtain ⟨hemem, hrec⟩ := List.mem_filter.mp hef
      exact hnone ⟨e, hemem, hid, by simpa using hrec⟩
  · intro engines hex now disk
    rfl

/-- C5 counterexample: a revision URL on a different host whose path
component matches `/u/r/tree/abc` is accepted by `checkout` even though it
does not match `{repo_url}/tree/{id}` for the accessor's own
`repo_url = https://github.com/u/r` — so the claim "every Revision whose url
does not match {repo_url}/tree/{id} fails with ValueError" is false. -/
theorem claim5_counterexample :
    GitHubRepo.checkout ⟨"u".data, "r".data, false⟩
        (.rev ⟨1, "https://example.com/u/r/tree/abc".data, ⟨"nextflow", []⟩⟩) =
      .ok ⟨⟨"u".data, "r".data, false⟩, "abc".data⟩ ∧
    ¬ matches_repo_tree_url ⟨"u".data, "r".data, false⟩
        "https://example.com/u/r/tree/abc".data := by
  constructor
  · decide
  · rintro ⟨id, hid⟩
    have hpre : (⟨"u".data, "r".data, false⟩ : GitHubRepo).url ++ "/tree/".data =
        "https://github.com/u/r/tree/".data := by decide
    rw [GitHubRepo.url] at hpre
    rw [show (⟨"u".data, "r".data, false⟩ : GitHubRepo).url ++ "/tree/".data ++ id =
        ((⟨"u".data, "r".data, false⟩ : GitHubRepo).url ++ "/tree/".data) ++ id from by
      rw [List.append_assoc]] at hid
    rw [GitHubRepo.url] at hid
    rw [hpre] at hid
    have htake := congrArg (List.take (("https://github.com/u/r/tree/".data).length)) hid
    rw [List.take_left] at htake
    exact absurd htake (by decide)

/-- C5 amended: `checkout` validates only the path component of the
revision's URL: for every revision whose URL's parsed path does not consist
of exactly the five parts `/`, `{user}`, `{repo}`, `tree`, `{id}`, checkout
fails with `ValueError` and performs no clone and no reset — the disk is
returned unchanged by the acquisition.  (The URL's scheme and host are not
part of the check; the original claim's "does not match {repo_url}/tree/{id}"
over-states the validation, see the counterexample.) -/
theorem claim5_amended (repo : GitHubRepo) (r : RevisionRow)
    (h : ¬((pathParts (urlparse r.url).path).take 4 =
            [['/'], repo.user, repo.repo, "tree".data] ∧
          (pathParts (urlparse r.url).path).length = 5)) :
    repo.checkout (.rev r) = .error .valueErrorUrlMismatch ∧
    ∀ (hex : List Char → List Char) (disk : Disk),
      with_checkout hex repo (.rev r) disk =
        (.error .valueErrorUrlMismatch, disk) := by
  have hc : repo.checkout (.rev r) = .error .valueErrorUrlMismatch := by
    simp only [GitHubRepo.checkout]
    rw [if_neg h]
  refine ⟨hc, fun hex disk => ?_⟩
  simp only [with_checkout, hc]

theorem claim5_amended_witness :
    (¬((pathParts (urlparse ("https://github.com/u/r".data :
            List Char)).path).take 4 =
          [['/'], "u".data, "r".data, "tree".data] ∧
        (pathParts (urlparse ("https://github.com/u/r".data :
            List Char)).path).length = 5)) ∧
    (GitHubRepo.checkout ⟨"u".data, "r".data, false⟩
        (.rev ⟨1, "https://github.com/u/r".data, ⟨"nextflow", []⟩⟩) =
          .error .valueErrorUrlMismatch ∧
      ∀ (hex : List Char → List Char) (disk : Disk),
        with_checkout hex ⟨"u".data, "r".data, false⟩
          (.rev ⟨1, "https://github.com/u/r".data, ⟨"nextflow", []⟩⟩) disk =
          (.error .valueErrorUrlMismatch, disk)) :=
  ⟨by decide,
   claim5_amended ⟨"u".data, "r".data, false⟩
     ⟨1, "https://github.com/u/r".data, ⟨"nextflow", []⟩⟩ (by decide)⟩

lemma get_repo_accessor_github_ok (owner repo : List Char)
    (gitSuffix tagsFlag : Bool) (ho : goodSeg owner) (hr : goodSeg repo) :
    get_repo_accessor (githubUrl owner repo gitSuffix tagsFlag) =
      .ok ⟨owner,
        removeDotGit (repo ++ (if gitSuffix then ".git".data else [])),
        tagsFlag⟩ := by
  have hrf : goodSeg (repo ++ (if gitSuffix then ".git".data else [])) := by
    cases gitSuffix
    · simpa using hr
    · exact goodSeg_append_git hr
  have key : ∀ q : List Char, '#' ∉ q →
      get_repo_accessor (mkUrl "https".data "github.com".data
        [owner, repo ++ (if gitSuffix then ".git".data else [])] q) =
      .ok ⟨owner,
        removeDotGit (repo ++ (if gitSuffix then ".git".data else [])),
        containsSeq "only_tags".data q⟩ := by
    intro q hq
    have hsegs : ∀ s ∈ [owner,
        repo ++ (if gitSuffix then ".git".data else [])], ∀ c ∈ s,
        c ≠ '/' ∧ c ≠ '?' ∧ c ≠ '#' ∧ c ≠ ';' := by
      intro s hs
      simp only [List.mem_cons, List.not_mem_nil, or_false] at hs
      rcases hs with rfl | rfl
      · exact ho.2.2
      · exact hrf.2.2
    have hparse := @urlparse_mkUrl "https".data "github.com".data
      [owner, repo ++ (if gitSuffix then ".git".data else [])] q
      (by decide) (by decide) hsegs hq
    have hparts : pathParts ('/' :: joinSegs '/'
        [owner, repo ++ (if gitSuffix then ".git".data else [])]) =
        ['/'] :: [owner, repo ++ (if gitSuffix then ".git".data else [])] :=
      pathParts_root (by simp)
        (by
          intro s hs
          simp only [List.mem_cons, List.not_mem_nil, or_false] at hs
          rcases hs with rfl | rfl
          · exact ⟨ho.1, ho.2.1, fun hc => (ho.2.2 '/' hc).1 rfl⟩
          · exact ⟨hrf.1, hrf.2.1, fun hc => (hrf.2.2 '/' hc).1 rfl⟩)
    simp [get_repo_accessor, hparse, hparts]
  cases tagsFlag
  · have h0 := key [] (by decide)
    simpa [githubUrl] using h0
  · have h0 := key "only_tags".data (by decide)
    rw [containsSeq_self] at h0
    simpa [githubUrl] using h0

lemma get_repo_accessor_deep_path (segs : List (List Char))
    (hall : ∀ s ∈ segs, goodSeg s) (hlen : 2 < segs.length) :
    get_repo_accessor (mkUrl "https".data "github.com".data segs []) =
      .error .notImplementedSubdirs := by
  have hsegs : ∀ s ∈ segs, ∀ c ∈ s, c ≠ '/' ∧ c ≠ '?' ∧ c ≠ '#' ∧ c ≠ ';' :=
    fun s hs => (hall s hs).2.2
  have hparse := @urlparse_mkUrl "https".data "github.com".data segs []
    (by decide) (by decide) hsegs (by decide)
  have hne : segs ≠ [] := by
    intro h
    rw [h] at hlen
    simp at hlen
  have hparts : pathParts ('/' :: joinSegs '/' segs) = ['/'] :: segs :=
    pathParts_root hne (fun s hs =>
      ⟨(hall s hs).1, (hall s hs).2.1,
        fun hc => ((hall s hs).2.2 '/' hc).1 rfl⟩)
  simp only [get_repo_accessor, hparse, hparts]
  rw [if_pos (Or.inl trivial), if_neg (by simp only [List.length_cons]; omega)]

lemma get_repo_accessor_other_host (url : List Char)
    (h1 : (urlparse url).netloc ≠ "github.com".data)
    (h2 : containsSeq "git@github:".data (urlparse url).netloc = false) :
    get_repo_accessor url = .error .notImplementedNoAccessor := by
  simp only [get_repo_accessor]
  rw [if_neg]
  rintro (h | h)
  · exact h1 h
  · rw [h2] at h
    exact absurd h (by decide)

end WfRegTest
